import Mathlib

/-!
Verification of `app/utils/gbff_processing.py`.

Strings from the Python side are modelled as `List Char`; sequences and
motifs are nucleotide strings.  Machine behaviour of CPython that the code
relies on (`str.find`, `str.upper`, slicing) is embedded explicitly.
-/

namespace GbffProcessing

/-- Python slice test `T[p:p+len(P)] == P`: the pattern `P` occurs in `T`
at position `p`.  (For a non-empty `P` this forces `p + P.length ≤ T.length`.) -/
def occursAt (T P : List Char) (p : Nat) : Prop :=
  (T.drop p).take P.length = P

instance (T P : List Char) (p : Nat) : Decidable (occursAt T P p) := by
  unfold occursAt; infer_instance

/-- One scanning pass of CPython `str.find(sub, start)` restricted to
candidate positions `p, p+1, ...` with `fuel` candidates left. -/
def pyFindLoop (T P : List Char) : Nat → Nat → Option Nat
  | _, 0 => none
  | p, fuel + 1 =>
    if occursAt T P p then some p else pyFindLoop T P (p + 1) fuel

/-- CPython `T.find(P, start)`: the least `p ≥ start` with
`T[p:p+len(P)] == P` (and `p ≤ len(T)`), or `none` (Python `-1`). -/
def pyFind (T P : List Char) (start : Nat) : Option Nat :=
  if start ≤ T.length then pyFindLoop T P start (T.length + 1 - start) else none

/-- The loop of `find_all_occurrences`, with explicit fuel: repeatedly call
`pyFind`, emit the position found and resume one past it. -/
def findAllAux (T P : List Char) : Nat → Nat → List Nat
  | 0, _ => []
  | fuel + 1, start =>
    match pyFind T P start with
    | none => []
    | some pos => pos :: findAllAux T P fuel (pos + 1)

/-- `find_all_occurrences(sequence, subseq)` from the source: all start
indices at which `subseq` appears in `sequence`, overlap-aware, scanning
resuming at `pos + 1` after each hit.  `T.length + 1` rounds of the loop
always suffice (positions are strictly increasing and bounded by
`T.length`), so the fuel is not a semantic restriction. -/
def find_all_occurrences (T P : List Char) : List Nat :=
  findAllAux T P (T.length + 1) 0

/-! ### Basic facts about `pyFind` -/

theorem pyFindLoop_some {T P : List Char} :
    ∀ {fuel p pos : Nat}, pyFindLoop T P p fuel = some pos →
      p ≤ pos ∧ pos < p + fuel ∧ occursAt T P pos ∧
        ∀ q, p ≤ q → q < pos → ¬ occursAt T P q := by
  intro fuel
  induction fuel with
  | zero => intro p pos h; simp [pyFindLoop] at h
  | succ n ih =>
    intro p pos h
    unfold pyFindLoop at h
    split at h
    · cases h
      exact ⟨Nat.le_refl _, by omega, by assumption, fun q hq hq' => by omega⟩
    · obtain ⟨h1, h2, h3, h4⟩ := ih h
      refine ⟨by omega, by omega, h3, fun q hq hq' => ?_⟩
      rcases Nat.eq_or_lt_of_le hq with rfl | hlt
      · assumption
      · exact h4 q hlt hq'

theorem pyFindLoop_none {T P : List Char} :
    ∀ {fuel p : Nat}, pyFindLoop T P p fuel = none →
      ∀ q, p ≤ q → q < p + fuel → ¬ occursAt T P q := by
  intro fuel
  induction fuel with
  | zero => intro p _ q hq hq'; omega
  | succ n ih =>
    intro p h q hq hq'
    unfold pyFindLoop at h
    split at h
    · cases h
    · rcases Nat.eq_or_lt_of_le hq with rfl | hlt
      · assumption
      · exact ih h q hlt (by omega)

/-- For non-empty `P`, an occurrence position is strictly below `T.length`. -/
theorem occursAt_lt_length {T P : List Char} {p : Nat} (hP : P ≠ [])
    (h : occursAt T P p) : p < T.length := by
  unfold occursAt at h
  have hlen : ((T.drop p).take P.length).length = P.length := by rw [h]
  have h1 : ((T.drop p).take P.length).length = min P.length (T.length - p) := by
    simp [List.length_take, List.length_drop]
  have hPpos : 0 < P.length := List.length_pos.mpr hP
  omega

theorem pyFind_some {T P : List Char} {start pos : Nat}
    (h : pyFind T P start = some pos) :
    start ≤ pos ∧ pos ≤ T.length ∧ occursAt T P pos ∧
      ∀ q, start ≤ q → q < pos → ¬ occursAt T P q := by
  unfold pyFind at h
  split at h
  · obtain ⟨h1, h2, h3, h4⟩ := pyFindLoop_some h
    exact ⟨h1, by omega, h3, h4⟩
  · cases h

theorem pyFind_none {T P : List Char} {start : Nat}
    (h : pyFind T P start = none) :
    ∀ q, start ≤ q → q ≤ T.length → ¬ occursAt T P q := by
  intro q hq hqle hocc
  unfold pyFind at h
  split at h
  · exact pyFindLoop_none h q hq (by omega) hocc
  · omega

/-! ### Membership and ordering of `findAllAux` -/

theorem mem_findAllAux_ge {T P : List Char} :
    ∀ {fuel start x : Nat}, x ∈ findAllAux T P fuel start → start ≤ x ∧ x ≤ T.length := by
  intro fuel
  induction fuel with
  | zero => intro start x h; simp [findAllAux] at h
  | succ n ih =>
    intro start x h
    unfold findAllAux at h
    split at h
    · simp at h
    · rename_i pos hfind
      obtain ⟨h1, h2, _, _⟩ := pyFind_some hfind
      rcases List.mem_cons.mp h with rfl | hmem
      · exact ⟨h1, h2⟩
      · obtain ⟨ha, hb⟩ := ih hmem
        exact ⟨by omega, hb⟩

theorem pairwise_findAllAux {T P : List Char} :
    ∀ {fuel start : Nat}, (findAllAux T P fuel start).Pairwise (· < ·) := by
  intro fuel
  induction fuel with
  | zero => simp [findAllAux]
  | succ n ih =>
    intro start
    unfold findAllAux
    split
    · simp
    · rename_i pos hfind
      refine List.pairwise_cons.mpr ⟨fun x hx => ?_, ih⟩
      have := (mem_findAllAux_ge hx).1
      omega

theorem mem_findAllAux {T P : List Char} :
    ∀ {fuel start x : Nat}, T.length + 1 ≤ start + fuel →
      (x ∈ findAllAux T P fuel start ↔
        start ≤ x ∧ x ≤ T.length ∧ occursAt T P x) := by
  intro fuel
  induction fuel with
  | zero => intro start x h; constructor
            · intro hx; simp [findAllAux] at hx
            · intro ⟨h1, h2, _⟩; omega
  | succ n ih =>
    intro start x hfuel
    unfold findAllAux
    split
    · rename_i hfind
      simp only [List.not_mem_nil, false_iff]
      intro ⟨h1, h2, h3⟩
      exact pyFind_none hfind x h1 h2 h3
    · rename_i pos hfind
      obtain ⟨h1, h2, h3, h4⟩ := pyFind_some hfind
      rw [List.mem_cons, ih (by omega)]
      constructor
      · rintro (rfl | ⟨ha, hb, hc⟩)
        · exact ⟨h1, h2, h3⟩
        · exact ⟨by omega, hb, hc⟩
      · rintro ⟨ha, hb, hc⟩
        by_cases hx : x = pos
        · exact Or.inl hx
        · refine Or.inr ⟨?_, hb, hc⟩
          by_contra hlt
          push_neg at hlt
          exact h4 x ha (by omega) hc

theorem mem_find_all_occurrences {T P : List Char} {x : Nat} :
    x ∈ find_all_occurrences T P ↔ x ≤ T.length ∧ occursAt T P x := by
  unfold find_all_occurrences
  rw [mem_findAllAux (by omega)]
  exact ⟨fun ⟨_, h2, h3⟩ => ⟨h2, h3⟩, fun ⟨h2, h3⟩ => ⟨Nat.zero_le _, h2, h3⟩⟩

theorem pairwise_find_all_occurrences (T P : List Char) :
    (find_all_occurrences T P).Pairwise (· < ·) :=
  pairwise_findAllAux

/-- Two strictly increasing lists of naturals with the same members are equal. -/
theorem strictSorted_eq_of_mem_iff :
    ∀ {l₁ l₂ : List Nat}, l₁.Pairwise (· < ·) → l₂.Pairwise (· < ·) →
      (∀ x, x ∈ l₁ ↔ x ∈ l₂) → l₁ = l₂ := by
  intro l₁
  induction l₁ with
  | nil =>
    intro l₂ _ _ hmem
    cases l₂ with
    | nil => rfl
    | cons b l₂ => exact absurd ((hmem b).mpr (List.mem_cons_self b l₂)) (by simp)
  | cons a l₁ ih =>
    intro l₂ h₁ h₂ hmem
    cases l₂ with
    | nil => exact absurd ((hmem a).mp (List.mem_cons_self a l₁)) (by simp)
    | cons b l₂ =>
      obtain ⟨ha₁, ha₂⟩ := List.pairwise_cons.mp h₁
      obtain ⟨hb₁, hb₂⟩ := List.pairwise_cons.mp h₂
      have hab : a = b := by
        rcases List.mem_cons.mp ((hmem a).mp (List.mem_cons_self a l₁)) with h | h
        · exact h
        · rcases List.mem_cons.mp ((hmem b).mpr (List.mem_cons_self b l₂)) with h' | h'
          · exact h'.symm
          · have := ha₁ b h'
            have := hb₁ a h
            omega
      subst hab
      have htail : ∀ x, x ∈ l₁ ↔ x ∈ l₂ := by
        intro x
        constructor
        · intro hx
          rcases List.mem_cons.mp ((hmem x).mp (List.mem_cons_of_mem a hx)) with rfl | h
          · exact absurd (ha₁ x hx) (by omega)
          · exact h
        · intro hx
          rcases List.mem_cons.mp ((hmem x).mpr (List.mem_cons_of_mem a hx)) with rfl | h
          · exact absurd (hb₁ x hx) (by omega)
          · exact h
      rw [ih ha₂ hb₂ htail]

/-- C1: for every text `T` and non-empty pattern `P`, `find_all_occurrences`
yields exactly the positions `p` with `T[p:p+len(P)] == P` — every yielded
position is a true occurrence, every occurrence is yielded exactly once
(overlaps included, since scanning resumes at `p+1`), and the output is a
finite list; in particular on text `AAAA` and pattern `AA` it yields
`[0, 1, 2]`. -/
theorem claim_C1_occurrence_finder :
    (∀ T P : List Char, P ≠ [] →
      (∀ p, p ∈ find_all_occurrences T P ↔ occursAt T P p) ∧
      (∀ p, occursAt T P p → (find_all_occurrences T P).count p = 1)) ∧
    find_all_occurrences (("AAAA").toList) (("AA").toList) = [0, 1, 2] := by
  constructor
  · intro T P hP
    have hmem : ∀ p, p ∈ find_all_occurrences T P ↔ occursAt T P p := by
      intro p
      rw [mem_find_all_occurrences]
      exact ⟨fun h => h.2, fun h => ⟨Nat.le_of_lt (occursAt_lt_length hP h), h⟩⟩
    refine ⟨hmem, fun p hp => ?_⟩
    have hnd : (find_all_occurrences T P).Nodup :=
      (pairwise_find_all_occurrences T P).imp (fun h => Nat.ne_of_lt h)
    exact List.count_eq_one_of_mem hnd ((hmem p).mpr hp)
  · rfl

/-- Witness for C1 at text `AAAA`, pattern `AA`: position 1 is an
occurrence and is counted exactly once. -/
theorem claim_C1_occurrence_finder_witness :
    (find_all_occurrences (("AAAA").toList) (("AA").toList)).count 1 = 1 :=
  (claim_C1_occurrence_finder.1 (("AAAA").toList) (("AA").toList)
    (by decide)).2 1 (by decide)

/-- C9: on the empty pattern, `find_all_occurrences` terminates and yields
exactly `0, 1, ..., len(T)` (that is, `List.range (len(T)+1)`, a strictly
increasing list of `len(T)+1` positions), because `str.find` of the empty
string returns the requested start offset while it is at most `len(T)` and
`-1` (here `none`) once it exceeds it. -/
theorem claim_C9_empty_pattern :
    (∀ T : List Char, find_all_occurrences T [] = List.range (T.length + 1)) ∧
    (∀ (T : List Char) (start : Nat),
      pyFind T [] start = if start ≤ T.length then some start else none) := by
  constructor
  · intro T
    apply strictSorted_eq_of_mem_iff (pairwise_find_all_occurrences T [])
      (List.pairwise_lt_range _)
    intro x
    rw [mem_find_all_occurrences, List.mem_range]
    have hocc : occursAt T [] x := rfl
    exact ⟨fun h => by omega, fun h => ⟨by omega, hocc⟩⟩
  · intro T start
    unfold pyFind
    split
    · rename_i hle
      have hfuel : T.length + 1 - start = (T.length - start) + 1 := by omega
      rw [hfuel]
      unfold pyFindLoop
      have hocc : occursAt T [] start := rfl
      rw [if_pos hocc]
    · rfl

/-! ### Strand normalizer -/

/-- Modelled from the spec: the Strand Normalizer (§4.2) is supplied by the
sequence library (`Bio.Seq.reverse_complement`), not by repository code.  Per
the spec, each character is complemented by the standard pairing A↔T, C↔G,
extended to the nucleotide ambiguity code (R↔Y, K↔M, B↔V, D↔H, S, W, N
self-paired), case preserved, any unsupported character left unchanged. -/
def complementChar (c : Char) : Char :=
  match c with
  | 'A' => 'T' | 'T' => 'A' | 'C' => 'G' | 'G' => 'C'
  | 'a' => 't' | 't' => 'a' | 'c' => 'g' | 'g' => 'c'
  | 'R' => 'Y' | 'Y' => 'R' | 'r' => 'y' | 'y' => 'r'
  | 'K' => 'M' | 'M' => 'K' | 'k' => 'm' | 'm' => 'k'
  | 'B' => 'V' | 'V' => 'B' | 'b' => 'v' | 'v' => 'b'
  | 'D' => 'H' | 'H' => 'D' | 'd' => 'h' | 'h' => 'd'
  | 'S' => 'S' | 's' => 's' | 'W' => 'W' | 'w' => 'w'
  | 'N' => 'N' | 'n' => 'n'
  | other => other

/-- Modelled from the spec: `reverse_complement(seq)` — complement every
character and reverse the result (`seq'[i] = complement(seq[len-1-i])`). -/
def reverse_complement (s : List Char) : List Char :=
  (s.map complementChar).reverse

theorem complementChar_involutive_on_ACGT {c : Char}
    (h : c = 'A' ∨ c = 'C' ∨ c = 'G' ∨ c = 'T') :
    complementChar (complementChar c) = c := by
  rcases h with rfl | rfl | rfl | rfl <;> rfl

theorem length_reverse_complement (s : List Char) :
    (reverse_complement s).length = s.length := by
  simp [reverse_complement]

/-- C8: the strand normalizer is an involution on nucleotide strings over
`{A,C,G,T}`; `reverse_complement("ATCG") = "CGAT"`; and the output always
has the same length as the input. -/
theorem claim_C8_strand_normalizer :
    (∀ S : List Char, (∀ c ∈ S, c = 'A' ∨ c = 'C' ∨ c = 'G' ∨ c = 'T') →
      reverse_complement (reverse_complement S) = S) ∧
    reverse_complement (("ATCG").toList) = ("CGAT").toList ∧
    (∀ S : List Char, (reverse_complement S).length = S.length) := by
  refine ⟨fun S hS => ?_, rfl, length_reverse_complement⟩
  unfold reverse_complement
  rw [List.map_reverse, List.reverse_reverse, List.map_map]
  have : S.map (complementChar ∘ complementChar) = S.map id :=
    List.map_congr_left (fun c hc => complementChar_involutive_on_ACGT (hS c hc))
  rw [this, List.map_id]

/-- Witness for C8: the involution law applied to the concrete string
`ACGT`, whose characters all lie in `{A,C,G,T}`. -/
theorem claim_C8_strand_normalizer_witness :
    reverse_complement (reverse_complement (("ACGT").toList)) = ("ACGT").toList :=
  claim_C8_strand_normalizer.1 (("ACGT").toList) (by decide)

/-! ### Motif locator (`process_gbff`) -/

/-- Python `str.upper()` applied character-wise (`Char.toUpper` is exactly
CPython's ASCII uppercase map on the basic latin range). -/
def seqUpper (s : List Char) : List Char :=
  s.map Char.toUpper

/-- The main loop of `process_gbff`: for each parsed reference record
`(rec.id, rec.seq)` compute the uppercased forward strand and the
uppercased reverse-complement strand, and for each motif group
`(pc_idx, unitigs)` and each unitig `utg` run `find_all_occurrences` over
the four strand/orientation combinations, appending one tuple
`(pc_idx + 1, utg, rec_id)` per position found. -/
def process_gbff (records : List (String × List Char))
    (target_unitigs : List (Nat × List (List Char))) :
    List (Nat × List Char × String) :=
  records.flatMap (fun rec =>
    let rec_id := rec.1
    let forward_seq_str := seqUpper rec.2
    let revcomp_seq_str := seqUpper (reverse_complement rec.2)
    target_unitigs.flatMap (fun pcu =>
      pcu.2.flatMap (fun utg =>
        let utg_revcomp := reverse_complement utg
        (find_all_occurrences forward_seq_str utg).map
            (fun _ => (pcu.1 + 1, utg, rec_id))
          ++ (find_all_occurrences forward_seq_str utg_revcomp).map
            (fun _ => (pcu.1 + 1, utg, rec_id))
          ++ (find_all_occurrences revcomp_seq_str utg).map
            (fun _ => (pcu.1 + 1, utg, rec_id))
          ++ (find_all_occurrences revcomp_seq_str utg_revcomp).map
            (fun _ => (pcu.1 + 1, utg, rec_id)))))

/-- Total number of positions produced by the four scans of motif `m`
against the reference sequence `s`. -/
def scanHitCount (s m : List Char) : Nat :=
  (find_all_occurrences (seqUpper s) m).length
    + (find_all_occurrences (seqUpper s) (reverse_complement m)).length
    + (find_all_occurrences (seqUpper (reverse_complement s)) m).length
    + (find_all_occurrences (seqUpper (reverse_complement s))
        (reverse_complement m)).length

theorem flatMap_congr_mem {α β : Type} {l : List α} {f g : α → List β}
    (h : ∀ a ∈ l, f a = g a) : l.flatMap f = l.flatMap g := by
  induction l with
  | nil => rfl
  | cons a l ih =>
    rw [List.flatMap_cons, List.flatMap_cons,
      h a (List.mem_cons_self a l), ih (fun b hb => h b (List.mem_cons_of_mem a hb))]

/-- For each record, group and motif in turn, the contribution of the four
scans is `scanHitCount` copies of the single hit tuple. -/
theorem process_gbff_eq_replicate (records : List (String × List Char))
    (groups : List (Nat × List (List Char))) :
    process_gbff records groups =
      records.flatMap (fun rec => groups.flatMap (fun g =>
        g.2.flatMap (fun m =>
          List.replicate (scanHitCount rec.2 m) (g.1 + 1, m, rec.1)))) := by
  apply flatMap_congr_mem
  intro rec _
  apply flatMap_congr_mem
  intro g _
  apply flatMap_congr_mem
  intro m _
  simp only [process_gbff, scanHitCount, List.map_const', List.replicate_add,
    List.append_assoc]

/-- C2: for every record, motif group and motif, `process_gbff` appends to
the output exactly one hit tuple `(group_index + 1, m, record id)` per
position found by any of the four scans (forward/m, forward/m_rc,
reverse/m, reverse/m_rc), with no deduplication across scans; the concrete
palindromic example shows the duplication (motif `AT` against single-record
reference `AT` yields the same hit four times). -/
theorem claim_C2_four_scans :
    (∀ (records : List (String × List Char))
      (groups : List (Nat × List (List Char))),
      process_gbff records groups =
        records.flatMap (fun rec => groups.flatMap (fun g =>
          g.2.flatMap (fun m =>
            List.replicate (scanHitCount rec.2 m) (g.1 + 1, m, rec.1))))) ∧
    process_gbff [(("r"), ("AT").toList)] [(0, [("AT").toList])] =
      List.replicate 4 (1, ("AT").toList, ("r")) :=
  ⟨process_gbff_eq_replicate, rfl⟩

theorem uint32_le_iff_toNat (a b : UInt32) : a ≤ b ↔ a.toNat ≤ b.toNat := by
  rw [UInt32.le_def, BitVec.le_def]
  exact Iff.rfl

theorem char_ofNat_toNat {n : Nat} (h : n < 55296) : (Char.ofNat n).toNat = n := by
  unfold Char.ofNat
  rw [dif_pos (Or.inl h)]
  rfl

theorem char_isLower_iff (x : Char) :
    x.isLower = true ↔ 97 ≤ x.toNat ∧ x.toNat ≤ 122 := by
  unfold Char.isLower
  rw [Bool.and_eq_true, decide_eq_true_eq, decide_eq_true_eq, ge_iff_le,
    uint32_le_iff_toNat, uint32_le_iff_toNat]
  have h97 : (97 : UInt32).toNat = 97 := by decide
  have h122 : (122 : UInt32).toNat = 122 := by decide
  rw [h97, h122]
  exact Iff.rfl

/-- C10 groundwork: `Char.toUpper` never returns a lowercase character. -/
theorem isLower_toUpper_eq_false (c : Char) : (Char.toUpper c).isLower = false := by
  unfold Char.toUpper
  show (if c.toNat ≥ 97 ∧ c.toNat ≤ 122 then Char.ofNat (c.toNat - 32)
    else c).isLower = false
  split
  · rename_i h
    rw [Bool.eq_false_iff]
    intro hl
    rw [char_isLower_iff, char_ofNat_toNat (by omega)] at hl
    omega
  · rename_i h
    rw [Bool.eq_false_iff]
    intro hl
    rw [char_isLower_iff] at hl
    exact h ⟨hl.1, hl.2⟩

theorem isLower_complementChar {c : Char} (h : c.isLower = true) :
    (complementChar c).isLower = true := by
  unfold complementChar
  split <;> first | decide | exact h

theorem not_isLower_of_mem_seqUpper {s : List Char} {c : Char}
    (h : c ∈ seqUpper s) : c.isLower = false := by
  obtain ⟨d, _, rfl⟩ := List.mem_map.mp h
  exact isLower_toUpper_eq_false d

/-- A pattern containing a lowercase character never occurs in an
uppercased text, so the corresponding scan finds nothing. -/
theorem find_all_occurrences_nil_of_lower {s m : List Char} {c0 : Char}
    (hc0 : c0 ∈ m) (hl : c0.isLower = true) :
    find_all_occurrences (seqUpper s) m = [] := by
  rw [List.eq_nil_iff_forall_not_mem]
  intro x hx
  obtain ⟨-, hocc⟩ := mem_find_all_occurrences.mp hx
  unfold occursAt at hocc
  have hsub : c0 ∈ seqUpper s := by
    rw [← hocc] at hc0
    exact List.drop_subset _ _ (List.take_subset _ _ hc0)
  rw [not_isLower_of_mem_seqUpper hsub] at hl
  cases hl

theorem mem_reverse_complement_of_mem {m : List Char} {c : Char}
    (h : c ∈ m) : complementChar c ∈ reverse_complement m := by
  unfold reverse_complement
  rw [List.mem_reverse]
  exact List.mem_map_of_mem complementChar h

/-- C10: matching is case-sensitive on the motif side only — the reference
strands are uppercased but the motif and its reverse complement are not
case-folded, so a motif containing a lowercase letter yields no occurrence
in any of the four scans against any reference sequence, and contributes no
hit at all to the output of `process_gbff`. -/
theorem claim_C10_lowercase_motif :
    ∀ (records : List (String × List Char))
      (groups : List (Nat × List (List Char))) (m : List Char) (c0 : Char),
      c0 ∈ m → c0.isLower = true →
      (∀ s : List Char,
        find_all_occurrences (seqUpper s) m = [] ∧
        find_all_occurrences (seqUpper s) (reverse_complement m) = []) ∧
      (process_gbff records groups).filter
        (fun hit => decide (hit.2.1 = m)) = [] := by
  intro records groups m c0 hc0 hl
  have hscan : ∀ s : List Char,
      find_all_occurrences (seqUpper s) m = [] ∧
      find_all_occurrences (seqUpper s) (reverse_complement m) = [] := by
    intro s
    exact ⟨find_all_occurrences_nil_of_lower hc0 hl,
      find_all_occurrences_nil_of_lower (mem_reverse_complement_of_mem hc0)
        (isLower_complementChar hl)⟩
  refine ⟨hscan, ?_⟩
  rw [process_gbff_eq_replicate, List.eq_nil_iff_forall_not_mem]
  intro hit hmem
  rw [List.mem_filter] at hmem
  obtain ⟨hmem, heq⟩ := hmem
  rw [decide_eq_true_eq] at heq
  rw [List.mem_flatMap] at hmem
  obtain ⟨rec, -, hmem⟩ := hmem
  rw [List.mem_flatMap] at hmem
  obtain ⟨g, -, hmem⟩ := hmem
  rw [List.mem_flatMap] at hmem
  obtain ⟨m', -, hmem⟩ := hmem
  rw [List.mem_replicate] at hmem
  obtain ⟨hcount, rfl⟩ := hmem
  have hm : m' = m := heq
  subst hm
  have hzero : scanHitCount rec.2 m' = 0 := by
    unfold scanHitCount
    rw [(hscan rec.2).1, (hscan rec.2).2,
      (hscan (reverse_complement rec.2)).1, (hscan (reverse_complement rec.2)).2]
    rfl
  exact hcount hzero

/-- Witness for C10: the lowercase motif `at` against a single uppercase
record `ATAT` produces empty scans and an empty filtered hit list. -/
theorem claim_C10_lowercase_motif_witness :
    find_all_occurrences (seqUpper (("ATAT").toList)) (("at").toList) = [] ∧
    (process_gbff [(("r"), ("ATAT").toList)] [(0, [("at").toList])]).filter
      (fun hit => decide (hit.2.1 = ("at").toList)) = [] :=
  ⟨(claim_C10_lowercase_motif [(("r"), ("ATAT").toList)] [(0, [("at").toList])]
      (("at").toList) 'a' (by decide) (by decide)).1 (("ATAT").toList) |>.1,
   (claim_C10_lowercase_motif [(("r"), ("ATAT").toList)] [(0, [("at").toList])]
      (("at").toList) 'a' (by decide) (by decide)).2⟩

/-! ### Ordering of the hit list (C4)

`process_gbff_traced` re-runs the loops of `process_gbff`, tagging every
emitted hit with its provenance: record index, group index, motif index,
scan number (0 = forward/m, 1 = forward/m_rc, 2 = reverse/m,
3 = reverse/m_rc) and occurrence position.  Projecting the tags away gives
back `process_gbff`, and the tag sequence is strictly increasing in
lexicographic order. -/

structure HKey where
  ri : Nat
  gi : Nat
  mi : Nat
  si : Nat
  pos : Nat

/-- Lexicographic strict order on provenance keys: record, then group,
then motif, then scan, then position. -/
def HKey.lt (a b : HKey) : Prop :=
  a.ri < b.ri ∨ (a.ri = b.ri ∧ (a.gi < b.gi ∨ (a.gi = b.gi ∧
    (a.mi < b.mi ∨ (a.mi = b.mi ∧ (a.si < b.si ∨ (a.si = b.si ∧
      a.pos < b.pos)))))))

/-- Pair every element of a list with its position, starting at `n`. -/
def idxFrom {α : Type} : Nat → List α → List (Nat × α)
  | _, [] => []
  | n, a :: l => (n, a) :: idxFrom (n + 1) l

/-- One scan pass, tagged with provenance. -/
def scanTagged (ri gi mi si : Nat) (text pat : List Char)
    (hit : Nat × List Char × String) :
    List (HKey × (Nat × List Char × String)) :=
  (find_all_occurrences text pat).map (fun p => (⟨ri, gi, mi, si, p⟩, hit))

/-- The four tagged scans of one motif, in the source's scan order. -/
def scanBlock (ri gi mi : Nat) (forward revc m : List Char)
    (hit : Nat × List Char × String) :
    List (HKey × (Nat × List Char × String)) :=
  scanTagged ri gi mi 0 forward m hit
    ++ scanTagged ri gi mi 1 forward (reverse_complement m) hit
    ++ scanTagged ri gi mi 2 revc m hit
    ++ scanTagged ri gi mi 3 revc (reverse_complement m) hit

/-- `process_gbff` with provenance tags. -/
def process_gbff_traced (records : List (String × List Char))
    (groups : List (Nat × List (List Char))) :
    List (HKey × (Nat × List Char × String)) :=
  (idxFrom 0 records).flatMap (fun rp =>
    (idxFrom 0 groups).flatMap (fun gp =>
      (idxFrom 0 gp.2.2).flatMap (fun mp =>
        scanBlock rp.1 gp.1 mp.1 (seqUpper rp.2.2)
          (seqUpper (reverse_complement rp.2.2)) mp.2
          (gp.2.1 + 1, mp.2, rp.2.1))))

theorem map_snd_idxFrom_flatMap {α β κ : Type}
    (g : Nat × α → List (κ × β)) (g' : α → List β)
    (h : ∀ i a, (g (i, a)).map Prod.snd = g' a) :
    ∀ (l : List α) (n : Nat),
      ((idxFrom n l).flatMap g).map Prod.snd = l.flatMap g' := by
  intro l
  induction l with
  | nil => intro n; rfl
  | cons a l ih =>
    intro n
    show ((g (n, a) ++ (idxFrom (n + 1) l).flatMap g).map
      Prod.snd) = g' a ++ l.flatMap g'
    rw [List.map_append, h n a, ih (n + 1)]

theorem mem_idxFrom_fst {α : Type} :
    ∀ {l : List α} {n : Nat} {p : Nat × α}, p ∈ idxFrom n l → n ≤ p.1 := by
  intro l
  induction l with
  | nil => intro n p h; simp [idxFrom] at h
  | cons a l ih =>
    intro n p h
    rcases List.mem_cons.mp h with rfl | h
    · exact Nat.le_refl _
    · exact Nat.le_of_succ_le (ih h)

theorem pairwise_idxFrom_flatMap {α β : Type} (R : β → β → Prop) (Q : β → Prop)
    (proj : β → Nat) (g : Nat × α → List β)
    (hQ : ∀ i a b, b ∈ g (i, a) → Q b ∧ proj b = i)
    (hR : ∀ b b', Q b → Q b' → proj b < proj b' → R b b')
    (hinner : ∀ i a, (g (i, a)).Pairwise R) :
    ∀ (l : List α) (n : Nat),
      ((idxFrom n l).flatMap g).Pairwise R := by
  intro l
  induction l with
  | nil => intro n; simp [idxFrom]
  | cons a l ih =>
    intro n
    show (g (n, a) ++ (idxFrom (n + 1) l).flatMap g).Pairwise R
    rw [List.pairwise_append]
    refine ⟨hinner n a, ih (n + 1), fun b hb b' hb' => ?_⟩
    obtain ⟨hQb, hpb⟩ := hQ n a b hb
    obtain ⟨p, hp, hb'g⟩ := List.mem_flatMap.mp hb'
    obtain ⟨hQb', hpb'⟩ := hQ p.1 p.2 b' hb'g
    have := mem_idxFrom_fst hp
    exact hR b b' hQb hQb' (by omega)

theorem mem_scanTagged_key {ri gi mi si : Nat} {text pat : List Char}
    {hit : Nat × List Char × String} {b : HKey × (Nat × List Char × String)}
    (h : b ∈ scanTagged ri gi mi si text pat hit) :
    b.1.ri = ri ∧ b.1.gi = gi ∧ b.1.mi = mi ∧ b.1.si = si := by
  obtain ⟨p, -, rfl⟩ := List.mem_map.mp h
  exact ⟨rfl, rfl, rfl, rfl⟩

/-- The ordering relation on tagged hits: compare provenance keys. -/
def hkeyRel (a b : HKey × (Nat × List Char × String)) : Prop :=
  HKey.lt a.1 b.1

theorem pairwise_scanTagged {ri gi mi si : Nat} {text pat : List Char}
    {hit : Nat × List Char × String} :
    (scanTagged ri gi mi si text pat hit).Pairwise hkeyRel := by
  unfold scanTagged
  rw [List.pairwise_map]
  apply (pairwise_find_all_occurrences text pat).imp
  intro p q hpq
  exact Or.inr ⟨rfl, Or.inr ⟨rfl, Or.inr ⟨rfl, Or.inr ⟨rfl, hpq⟩⟩⟩⟩

theorem mem_scanBlock_key {ri gi mi : Nat} {forward revc m : List Char}
    {hit : Nat × List Char × String} {b : HKey × (Nat × List Char × String)}
    (h : b ∈ scanBlock ri gi mi forward revc m hit) :
    b.1.ri = ri ∧ b.1.gi = gi ∧ b.1.mi = mi := by
  unfold scanBlock at h
  rcases List.mem_append.mp h with h | h
  rcases List.mem_append.mp h with h | h
  rcases List.mem_append.mp h with h | h
  all_goals
    obtain ⟨h1, h2, h3, -⟩ := mem_scanTagged_key h
    exact ⟨h1, h2, h3⟩

theorem hkeyRel_of_si_lt {a b : HKey × (Nat × List Char × String)}
    (h1 : a.1.ri = b.1.ri) (h2 : a.1.gi = b.1.gi) (h3 : a.1.mi = b.1.mi)
    (h4 : a.1.si < b.1.si) : hkeyRel a b :=
  Or.inr ⟨h1, Or.inr ⟨h2, Or.inr ⟨h3, Or.inl h4⟩⟩⟩

theorem scanTagged_cross {ri gi mi si si' : Nat} {t p t' p' : List Char}
    {h h' : Nat × List Char × String} (hsi : si < si') :
    ∀ a ∈ scanTagged ri gi mi si t p h,
      ∀ b ∈ scanTagged ri gi mi si' t' p' h', hkeyRel a b := by
  intro a ha b hb
  obtain ⟨a1, a2, a3, a4⟩ := mem_scanTagged_key ha
  obtain ⟨b1, b2, b3, b4⟩ := mem_scanTagged_key hb
  exact hkeyRel_of_si_lt (by omega) (by omega) (by omega) (by omega)

theorem pairwise_scanBlock {ri gi mi : Nat} {forward revc m : List Char}
    {hit : Nat × List Char × String} :
    (scanBlock ri gi mi forward revc m hit).Pairwise hkeyRel := by
  unfold scanBlock
  rw [List.pairwise_append]
  refine ⟨?_, pairwise_scanTagged, ?_⟩
  · rw [List.pairwise_append]
    refine ⟨?_, pairwise_scanTagged, ?_⟩
    · rw [List.pairwise_append]
      exact ⟨pairwise_scanTagged, pairwise_scanTagged,
        scanTagged_cross (by omega)⟩
    · intro a ha b hb
      rcases List.mem_append.mp ha with ha | ha
      · exact scanTagged_cross (by omega) a ha b hb
      · exact scanTagged_cross (by omega) a ha b hb
  · intro a ha b hb
    rcases List.mem_append.mp ha with ha | ha
    · rcases List.mem_append.mp ha with ha | ha
      · exact scanTagged_cross (by omega) a ha b hb
      · exact scanTagged_cross (by omega) a ha b hb
    · exact scanTagged_cross (by omega) a ha b hb

theorem map_snd_scanBlock (ri gi mi : Nat) (f r m : List Char)
    (hit : Nat × List Char × String) :
    (scanBlock ri gi mi f r m hit).map Prod.snd =
      (find_all_occurrences f m).map (fun _ => hit)
        ++ (find_all_occurrences f (reverse_complement m)).map (fun _ => hit)
        ++ (find_all_occurrences r m).map (fun _ => hit)
        ++ (find_all_occurrences r (reverse_complement m)).map (fun _ => hit) := by
  unfold scanBlock scanTagged
  rw [List.map_append, List.map_append, List.map_append,
    List.map_map, List.map_map, List.map_map, List.map_map]
  rfl

theorem map_snd_process_gbff_traced (records : List (String × List Char))
    (groups : List (Nat × List (List Char))) :
    (process_gbff_traced records groups).map Prod.snd =
      process_gbff records groups := by
  unfold process_gbff_traced process_gbff
  refine map_snd_idxFrom_flatMap _ _ (fun ri rec => ?_) records 0
  refine map_snd_idxFrom_flatMap _ _ (fun gi pcu => ?_) groups 0
  refine map_snd_idxFrom_flatMap _ _ (fun mi utg => ?_) pcu.2 0
  exact map_snd_scanBlock ri gi mi (seqUpper rec.2)
    (seqUpper (reverse_complement rec.2)) utg (pcu.1 + 1, utg, rec.1)

theorem pairwise_process_gbff_traced (records : List (String × List Char))
    (groups : List (Nat × List (List Char))) :
    (process_gbff_traced records groups).Pairwise hkeyRel := by
  unfold process_gbff_traced
  refine pairwise_idxFrom_flatMap hkeyRel (fun _ => True) (fun b => b.1.ri) _
    ?_ ?_ ?_ records 0
  · intro ri rec b hb
    obtain ⟨gp, -, hb⟩ := List.mem_flatMap.mp hb
    obtain ⟨mp, -, hb⟩ := List.mem_flatMap.mp hb
    exact ⟨trivial, (mem_scanBlock_key hb).1⟩
  · intro b b' _ _ hlt
    exact Or.inl hlt
  · intro ri rec
    refine pairwise_idxFrom_flatMap hkeyRel (fun b => b.1.ri = ri)
      (fun b => b.1.gi) _ ?_ ?_ ?_ groups 0
    · intro gi pcu b hb
      obtain ⟨mp, -, hb⟩ := List.mem_flatMap.mp hb
      obtain ⟨h1, h2, -⟩ := mem_scanBlock_key hb
      exact ⟨h1, h2⟩
    · intro b b' hq hq' hlt
      exact Or.inr ⟨by omega, Or.inl hlt⟩
    · intro gi pcu
      refine pairwise_idxFrom_flatMap hkeyRel
        (fun b => b.1.ri = ri ∧ b.1.gi = gi) (fun b => b.1.mi) _
        ?_ ?_ ?_ pcu.2 0
      · intro mi utg b hb
        obtain ⟨h1, h2, h3⟩ := mem_scanBlock_key hb
        exact ⟨⟨h1, h2⟩, h3⟩
      · intro b b' hq hq' hlt
        exact Or.inr ⟨by omega, Or.inr ⟨by omega, Or.inl hlt⟩⟩
      · intro mi utg
        exact pairwise_scanBlock

/-- C4: the hit list of `process_gbff` is produced in order of reference
record, then motif group, then motif within the group, then scan
(forward/m, forward/m_rc, reverse/m, reverse/m_rc), then increasing
occurrence position within a scan: the provenance-tagged run
`process_gbff_traced` projects onto `process_gbff` and its tag sequence is
strictly increasing in the lexicographic order `HKey.lt`. -/
theorem claim_C4_hit_ordering :
    ∀ (records : List (String × List Char))
      (groups : List (Nat × List (List Char))),
      (process_gbff_traced records groups).map Prod.snd =
        process_gbff records groups ∧
      (process_gbff_traced records groups).Pairwise hkeyRel :=
  fun records groups =>
    ⟨map_snd_process_gbff_traced records groups,
     pairwise_process_gbff_traced records groups⟩

/-! ### Failure handling of `process_gbff` (C5)

The source wraps `SeqIO.parse` in `try/except`, returning the (still
empty) match list with a `st.warning` when parsing fails, and likewise
when parsing yields zero records.  Parsing is an external effect, so it is
embedded as an `Except` input; the emitted warnings are returned instead
of being sent to the UI layer. -/

def process_gbff_source
    (parse_result : Except String (List (String × List Char)))
    (gbff_path : String)
    (target_unitigs : List (Nat × List (List Char))) :
    List (Nat × List Char × String) × List String :=
  match parse_result with
  | Except.error e =>
    ([], [("  [WARNING] Could not parse ") ++ gbff_path ++ (" as FASTA: ") ++ e])
  | Except.ok [] =>
    ([], [("  [WARNING] No FASTA records in ") ++ gbff_path ++ (", skipping.")])
  | Except.ok records => (process_gbff records target_unitigs, [])

/-- A caller's loop over several reference sources, concatenating hits and
warnings in order. -/
def process_sources
    (sources : List (Except String (List (String × List Char)) × String))
    (target_unitigs : List (Nat × List (List Char))) :
    List (Nat × List Char × String) × List String :=
  match sources with
  | [] => ([], [])
  | s :: rest =>
    let r := process_gbff_source s.1 s.2 target_unitigs
    let r' := process_sources rest target_unitigs
    (r.1 ++ r'.1, r.2 ++ r'.2)

/-- C5: a reference source that fails to parse, or parses to zero records,
never raises: it contributes an empty hit list plus one warning naming the
source, and a run over many sources decomposes per source, so the other
sources are processed exactly as they would be alone. -/
theorem claim_C5_failure_isolation :
    (∀ (e path : String) (groups : List (Nat × List (List Char))),
      process_gbff_source (Except.error e) path groups =
        ([], [("  [WARNING] Could not parse ") ++ path ++ (" as FASTA: ") ++ e])) ∧
    (∀ (path : String) (groups : List (Nat × List (List Char))),
      process_gbff_source (Except.ok []) path groups =
        ([], [("  [WARNING] No FASTA records in ") ++ path ++ (", skipping.")])) ∧
    (∀ (sources : List (Except String (List (String × List Char)) × String))
      (groups : List (Nat × List (List Char))),
      process_sources sources groups =
        (sources.flatMap (fun s => (process_gbff_source s.1 s.2 groups).1),
         sources.flatMap (fun s => (process_gbff_source s.1 s.2 groups).2))) := by
  refine ⟨fun e path groups => rfl, fun path groups => rfl, fun sources groups => ?_⟩
  induction sources with
  | nil => rfl
  | cons s rest ih =>
    show ((process_gbff_source s.1 s.2 groups).1 ++ (process_sources rest groups).1,
      (process_gbff_source s.1 s.2 groups).2 ++ (process_sources rest groups).2) = _
    rw [ih]
    rfl

/-! ### Gene overlap resolver (C6) -/

/-- A parsed GenBank feature: type tag, coordinate interval and qualifier
map (the Python `feat.location.start` / `feat.location.end` coerced with
`int(...)`, and `feat.qualifiers`, a dict from name to value list).  The
interval end is called `stop` because `end` is reserved in Lean. -/
structure Feature where
  type : String
  start : Int
  stop : Int
  qualifiers : List (String × List String)

/-- Python `feat.qualifiers.get(k, ["?"])[0]`: first value of the
qualifier, or the sentinel `"?"` when the qualifier is absent. -/
def getQualifier (f : Feature) (k : String) : String :=
  ((f.qualifiers.lookup k).getD ([("?")])).headD ("?")

/-- `get_overlapping_genes(features, start_pos, end_pos)` from the source:
keep gene/CDS features satisfying the inclusive overlap test
`not (f_end < start_pos or f_start > end_pos)`, emitting
`(type, start, end, locus_tag, gene, product)` tuples in input order. -/
def get_overlapping_genes :
    List Feature → Int → Int → List (String × Int × Int × String × String × String)
  | [], _, _ => []
  | f :: rest, start_pos, end_pos =>
    if f.type = ("gene") ∨ f.type = ("CDS") then
      if ¬ (f.stop < start_pos ∨ f.start > end_pos) then
        (f.type, f.start, f.stop, getQualifier f ("locus_tag"),
          getQualifier f ("gene"), getQualifier f ("product"))
          :: get_overlapping_genes rest start_pos end_pos
      else get_overlapping_genes rest start_pos end_pos
    else get_overlapping_genes rest start_pos end_pos

theorem get_overlapping_genes_eq_filter_map (features : List Feature)
    (s e : Int) :
    get_overlapping_genes features s e =
      (features.filter (fun f =>
        decide ((f.type = ("gene") ∨ f.type = ("CDS")) ∧
          ¬ (f.stop < s ∨ f.start > e)))).map
        (fun f => (f.type, f.start, f.stop, getQualifier f ("locus_tag"),
          getQualifier f ("gene"), getQualifier f ("product"))) := by
  induction features with
  | nil => rfl
  | cons f rest ih =>
    have hstep : get_overlapping_genes (f :: rest) s e =
        if f.type = ("gene") ∨ f.type = ("CDS") then
          if ¬ (f.stop < s ∨ f.start > e) then
            (f.type, f.start, f.stop, getQualifier f ("locus_tag"),
              getQualifier f ("gene"), getQualifier f ("product"))
              :: get_overlapping_genes rest s e
          else get_overlapping_genes rest s e
        else get_overlapping_genes rest s e := rfl
    rw [hstep]
    by_cases ht : f.type = ("gene") ∨ f.type = ("CDS")
    · by_cases hov : ¬ (f.stop < s ∨ f.start > e)
      · rw [if_pos ht, if_pos hov, List.filter_cons,
          if_pos (decide_eq_true ⟨ht, hov⟩), List.map_cons, ih]
      · rw [if_pos ht, if_neg hov, List.filter_cons,
          if_neg (by simp only [decide_eq_true_eq]; tauto), ih]
    · rw [if_neg ht, List.filter_cons,
        if_neg (by simp only [decide_eq_true_eq]; tauto), ih]

/-- A concrete gene feature at `[100, 200]` with no qualifiers. -/
def featGene100200 : Feature :=
  { type := ("gene"), start := 100, stop := 200, qualifiers := [] }

/-- C6: `get_overlapping_genes` returns, in input order, exactly the
gene/CDS features passing the inclusive-boundary test
`not (f.end < start or f.start > end)`, with absent qualifiers replaced by
`"?"`; a `[100,200]` gene overlaps the query `[200,210]` (boundary touch)
but not `[201,210]`, and no feature of any other type ever appears. -/
theorem claim_C6_overlap_resolver :
    (∀ (features : List Feature) (s e : Int),
      get_overlapping_genes features s e =
        (features.filter (fun f =>
          decide ((f.type = ("gene") ∨ f.type = ("CDS")) ∧
            ¬ (f.stop < s ∨ f.start > e)))).map
          (fun f => (f.type, f.start, f.stop, getQualifier f ("locus_tag"),
            getQualifier f ("gene"), getQualifier f ("product")))) ∧
    (∀ (features : List Feature) (s e : Int) hit,
      hit ∈ get_overlapping_genes features s e →
      hit.1 = ("gene") ∨ hit.1 = ("CDS")) ∧
    get_overlapping_genes [featGene100200] 150 160 =
      [(("gene"), (100 : Int), (200 : Int), ("?"), ("?"), ("?"))] ∧
    get_overlapping_genes [featGene100200] 200 210 =
      [(("gene"), (100 : Int), (200 : Int), ("?"), ("?"), ("?"))] ∧
    get_overlapping_genes [featGene100200] 201 210 = [] := by
  refine ⟨get_overlapping_genes_eq_filter_map, ?_, rfl, rfl, rfl⟩
  intro features s e hit hmem
  rw [get_overlapping_genes_eq_filter_map] at hmem
  obtain ⟨f, hf, rfl⟩ := List.mem_map.mp hmem
  have := List.of_mem_filter hf
  rw [decide_eq_true_eq] at this
  exact this.1

/-- Witness for C6: the membership conjunct applied to the concrete
boundary-touch scenario. -/
theorem claim_C6_overlap_resolver_witness :
    (("gene"), (100 : Int), (200 : Int), ("?"), ("?"), ("?")).1 = ("gene") ∨
    (("gene"), (100 : Int), (200 : Int), ("?"), ("?"), ("?")).1 = ("CDS") :=
  claim_C6_overlap_resolver.2.1 [featGene100200] 200 210
    (("gene"), (100 : Int), (200 : Int), ("?"), ("?"), ("?"))
    (by decide)

/-! ### Gene name extractor (C7) -/

/-- `extract_genes(overlap_hits)` from the source: gene symbol unless it is
`"?"`, else locus tag unless `"?"`, else product unless `"?"`, else the
literal `"Unknown"`, one name per hit. -/
def extract_genes :
    List (String × Int × Int × String × String × String) → List String
  | [] => []
  | (_, _, _, lt, gene, prod) :: rest =>
    (if gene ≠ ("?") then gene
     else if lt ≠ ("?") then lt
     else if prod ≠ ("?") then prod
     else ("Unknown")) :: extract_genes rest

/-- The per-hit priority chain, as the spec words it. -/
def displayName (hit : String × Int × Int × String × String × String) : String :=
  match hit with
  | (_, _, _, lt, gene, prod) =>
    if gene ≠ ("?") then gene
    else if lt ≠ ("?") then lt
    else if prod ≠ ("?") then prod
    else ("Unknown")

/-- C7: `extract_genes` returns exactly one display name per hit, in input
order, by the priority chain gene symbol / locus tag / product /
`"Unknown"`; e.g. gene `?`, locus tag `LT1`, product `hydrolase` gives
`LT1`, and three `?`s give `Unknown`. -/
theorem claim_C7_name_extractor :
    (∀ hits, extract_genes hits = hits.map displayName) ∧
    extract_genes [(("gene"), (0 : Int), (1 : Int), ("LT1"), ("?"), ("hydrolase"))] =
      [("LT1")] ∧
    extract_genes [(("gene"), (0 : Int), (1 : Int), ("?"), ("?"), ("?"))] =
      [("Unknown")] := by
  refine ⟨?_, by decide, by decide⟩
  intro hits
  induction hits with
  | nil => rfl
  | cons h rest ih =>
    obtain ⟨t, s0, e0, lt, gene, prod⟩ := h
    show (if gene ≠ ("?") then gene
      else if lt ≠ ("?") then lt
      else if prod ≠ ("?") then prod
      else ("Unknown")) :: extract_genes rest = _
    rw [List.map_cons, ih]
    rfl

/-! ### Annotation table normalizer (C3)

`load_panaroo_csv` works on CSV cell strings; Python string methods are
embedded over `List Char` (CPython semantics, ASCII range). -/

/-- The whitespace characters stripped by Python `str.strip()`. -/
def isSpaceChar (c : Char) : Bool :=
  c = ' ' || c = '\t' || c = '\n' || c = '\r' || c = '\x0b' || c = '\x0c'

/-- Python `str.strip()`: drop whitespace from both ends. -/
def pyStrip (s : List Char) : List Char :=
  ((s.dropWhile isSpaceChar).reverse.dropWhile isSpaceChar).reverse

/-- Python `str.lower()` (ASCII range). -/
def pyLower (s : List Char) : List Char :=
  s.map Char.toLower

/-- Python `str.split(sep)` for a one-character separator: split at every
occurrence, keeping empty pieces. -/
def pySplitChar (sep : Char) : List Char → List (List Char)
  | [] => [[]]
  | c :: rest =>
    if c = sep then [] :: pySplitChar sep rest
    else
      match pySplitChar sep rest with
      | [] => [[c]]
      | t :: ts => (c :: t) :: ts

/-- Pieces of a list cut at every character satisfying `p` (empty pieces
kept); filtering the empties gives Python `str.split()`. -/
def pySplitP (p : Char → Bool) : List Char → List (List Char)
  | [] => [[]]
  | c :: rest =>
    if p c then [] :: pySplitP p rest
    else
      match pySplitP p rest with
      | [] => [[c]]
      | t :: ts => (c :: t) :: ts

/-- Python `str.split()` with no argument: maximal non-empty runs between
whitespace. -/
def pyWhitespaceSplit (s : List Char) : List (List Char) :=
  (pySplitP isSpaceChar s).filter (fun t => ¬ t.isEmpty)

/-- The row-local helper `is_blank_or_nan` of `load_panaroo_csv`:
`not s or s.strip().lower() in ["nan", ""]`. -/
def is_blank_or_nan (s : List Char) : Bool :=
  s.isEmpty ||
    (decide (pyLower (pyStrip s) = ("nan").toList) ||
      decide (pyLower (pyStrip s) = []))

/-- The comprehension `[x.strip() for x in nonunique.split(';') if x.strip()]`. -/
def splitSemiTrim (nonunique : List Char) : List (List Char) :=
  (pySplitChar ';' nonunique).filterMap (fun x =>
    let t := pyStrip x
    if t = [] then none else some t)

/-- The expression `annotation.split()[0].strip()`. -/
def firstAnnotToken (annot : List Char) : List Char :=
  pyStrip ((pyWhitespaceSplit annot).headD [])

/-- The per-row display-name choice of `load_panaroo_csv`: split the
non-unique-name cell on `';'`, strip each part and drop blanks; if the
first surviving part exists and does not start with `group_`, it is the
name; otherwise, a non-blank annotation cell not starting (after
lowercasing) with `hypothetical` contributes its first whitespace token;
otherwise — or when the chosen name still starts with `group_` — the
cluster id itself is used. -/
def rowShortName (cluster_id nonunique annot : List Char) : List Char :=
  let short1 : Option (List Char) :=
    if ¬ (is_blank_or_nan nonunique = true) then
      let first_nonunique := (splitSemiTrim nonunique).headD []
      if first_nonunique ≠ [] ∧
          ¬ (("group_").toList.isPrefixOf first_nonunique = true) then
        some first_nonunique
      else none
    else none
  let short2 : Option (List Char) :=
    match short1 with
    | none =>
      if ¬ (is_blank_or_nan annot = true) ∧
          ¬ (("hypothetical").toList.isPrefixOf (pyLower annot) = true) then
        some (firstAnnotToken annot)
      else none
    | some s => some s
  match short2 with
  | none => cluster_id
  | some s =>
    if s = [] ∨ ("group_").toList.isPrefixOf s = true then cluster_id else s

/-- Python dict assignment `map_dict[k] = v`: replace the binding if the
key exists, else append it. -/
def upsert (m : List (List Char × List Char)) (k v : List Char) :
    List (List Char × List Char) :=
  match m with
  | [] => [(k, v)]
  | (k', v') :: rest =>
    if k' = k then (k, v) :: rest else (k', v') :: upsert rest k v

/-- `load_panaroo_csv` over already-parsed rows
`(Gene, Non-unique Gene name, Annotation)`: build the cluster-id → display
name map row by row, later rows overwriting earlier ones. -/
def load_panaroo_csv (rows : List (List Char × List Char × List Char)) :
    List (List Char × List Char) :=
  rows.foldl (fun m row => upsert m row.1 (rowShortName row.1 row.2.1 row.2.2)) []

/-- C3 counterexample: a row whose non-unique-name cell is
`group_500;rplL` (cluster id `group_1`, blank annotation) is mapped to the
cluster id `group_1`, not to `rplL`: the code inspects only the *first*
semicolon token (`group_500`), and since it starts with `group_` it falls
through to the annotation / cluster-id fallbacks without ever considering
`rplL`. -/
theorem claim_C3_group_token_counterexample :
    rowShortName (("group_1").toList) (("group_500;rplL").toList)
        (("nan").toList) = ("group_1").toList ∧
    load_panaroo_csv
        [((("group_1").toList), (("group_500;rplL").toList), (("nan").toList))] =
      [((("group_1").toList), (("group_1").toList))] ∧
    ("group_1").toList ≠ ("rplL").toList := by
  refine ⟨by decide, by decide, by decide⟩

/-- C3 (amended): after splitting on `';'` and trimming, the *first*
non-empty token wins as the display name exactly when it does not start
with `group_`; a first token that does start with `group_` (as in
`group_500;rplL`) is not replaced by a later token — the row falls through
to the annotation / cluster-id fallbacks.  So `rplL;group_500` yields
`rplL`, while `group_500;rplL` does not yield `rplL`. -/
theorem claim_C3_first_token_rule :
    ∀ (cluster_id nonunique annot t : List Char),
      is_blank_or_nan nonunique = false →
      (splitSemiTrim nonunique).headD [] = t →
      t ≠ [] →
      ("group_").toList.isPrefixOf t = false →
      rowShortName cluster_id nonunique annot = t := by
  intro cluster_id nonunique annot t hblank hfirst hne hpre
  unfold rowShortName
  rw [if_pos (by rw [hblank]; exact Bool.false_ne_true), hfirst,
    if_pos ⟨hne, by rw [hpre]; exact Bool.false_ne_true⟩]
  show (if t = [] ∨ ("group_").toList.isPrefixOf t = true then cluster_id
    else t) = t
  rw [if_neg]
  rintro (h | h)
  · exact hne h
  · rw [hpre] at h
    cases h

/-- Witness for the amended C3: on the cell `rplL;group_500` the first
trimmed token `rplL` does not start with `group_` and wins. -/
theorem claim_C3_first_token_rule_witness :
    rowShortName (("gid").toList) (("rplL;group_500").toList) (("x").toList) =
      ("rplL").toList :=
  claim_C3_first_token_rule (("gid").toList) (("rplL;group_500").toList)
    (("x").toList) (("rplL").toList) (by decide) (by decide) (by decide) (by decide)

end GbffProcessing
